import Mathlib

/-!
Verification of the kzip archiver (src/main.rs) against its specification.

The program is shallowly embedded: bytes are naturals (values < 256 in any
real file), byte streams are `List Nat`, the `bytebuffer` crate's big-endian
integer codec is modelled by `u8Bytes`/`u32Bytes`/`u64Bytes`/`stringBytes`
and the matching `read*` functions, the file system seen by the writer is an
inductive tree, and the compressor (the `flate2` crate, out of scope per the
spec) is a parameter `encode`/`decode` of the definitions.  `.unwrap()`
panics of the Rust code are modelled as `Option`/`Except` failures.  Machine
arithmetic that can wrap (the `u8` magic-number accumulator) is modelled
with an explicit `% 256`, matching release-profile wrapping semantics.
-/

/-- One byte as written by `ByteBuffer::write_u8`. -/
def u8Bytes (n : Nat) : List Nat := [n % 256]

/-- Four big-endian bytes as written by `ByteBuffer::write_u32`. -/
def u32Bytes (n : Nat) : List Nat :=
  [n / 2 ^ 24 % 256, n / 2 ^ 16 % 256, n / 2 ^ 8 % 256, n % 256]

/-- Eight big-endian bytes as written by `ByteBuffer::write_u64`. -/
def u64Bytes (n : Nat) : List Nat :=
  [n / 2 ^ 56 % 256, n / 2 ^ 48 % 256, n / 2 ^ 40 % 256, n / 2 ^ 32 % 256,
   n / 2 ^ 24 % 256, n / 2 ^ 16 % 256, n / 2 ^ 8 % 256, n % 256]

/-- A length-prefixed string as written by `ByteBuffer::write_string`
(u32 big-endian byte length, then the UTF-8 bytes). -/
def stringBytes (s : List Nat) : List Nat := u32Bytes s.length ++ s

/-- `ByteBuffer::read_u8`: one byte off the stream, `None` models the
`Err` that `.unwrap()` turns into a panic. -/
def readU8 : List Nat → Option (Nat × List Nat)
  | [] => none
  | b :: rest => some (b, rest)

/-- `ByteBuffer::read_u32` (big-endian). -/
def readU32 : List Nat → Option (Nat × List Nat)
  | b0 :: b1 :: b2 :: b3 :: rest =>
    some (b0 * 2 ^ 24 + b1 * 2 ^ 16 + b2 * 2 ^ 8 + b3, rest)
  | _ => none

/-- `ByteBuffer::read_u64` (big-endian). -/
def readU64 : List Nat → Option (Nat × List Nat)
  | b0 :: b1 :: b2 :: b3 :: b4 :: b5 :: b6 :: b7 :: rest =>
    some (b0 * 2 ^ 56 + b1 * 2 ^ 48 + b2 * 2 ^ 40 + b3 * 2 ^ 32 +
          b4 * 2 ^ 24 + b5 * 2 ^ 16 + b6 * 2 ^ 8 + b7, rest)
  | _ => none

/-- `ByteBuffer::read_bytes n`: exactly `n` bytes or failure. -/
def readBytes (n : Nat) (bs : List Nat) : Option (List Nat × List Nat) :=
  if n ≤ bs.length then some (bs.take n, bs.drop n) else none

/-- `ByteBuffer::read_string`: u32 length then that many bytes. -/
def readString (bs : List Nat) : Option (List Nat × List Nat) :=
  match readU32 bs with
  | none => none
  | some (n, rest) => readBytes n rest

/-- UTF-8 bytes of an ASCII string literal (every name used in this
development is ASCII, where codepoint = byte). -/
def asciiOf (s : String) : List Nat := s.data.map Char.toNat

/-- `path::MAIN_SEPARATOR` on the target platform (Linux, `/`). -/
def sepL : List Nat := [47]

/-- The `VERSION` constant of the source. -/
def versionBytes : List Nat := asciiOf "0.0.7"

/- The file system seen by the program.  A regular file carries the
`created`/`modified` Unix-seconds metadata the source reads and its raw
content bytes; a directory carries a list of named children (mutually
inductive to keep recursion structural). -/
mutual
inductive FsTree : Type where
  | file : Nat → Nat → List Nat → FsTree
  | dir : FsEntries → FsTree
inductive FsEntries : Type where
  | nil : FsEntries
  | cons : List Nat → FsTree → FsEntries → FsEntries
end

/-- An archive record as constructed by `generate_buffer`: either a unique
entry carrying the (still uncompressed) content, or a duplicate reference. -/
inductive KRecord : Type where
  | unique : List Nat → Nat → Nat → List Nat → KRecord
  | dupRef : List Nat → Nat → Nat → Nat → KRecord
deriving DecidableEq

/-- The writer's `HashMap<String, usize>` keyed by `sha256::digest(content)`.
sha256 is modelled as an injective fingerprint, so the association list is
keyed directly by the raw content bytes. -/
def Hashes : Type := List (List Nat × Nat)

/-- `HashMap::get`/`contains_key` on the fingerprint map. -/
def hLookup : Hashes → List Nat → Option Nat
  | [], _ => none
  | (k, v) :: rest, c => if k = c then some v else hLookup rest c

/-- `HashMap::insert(file_hash, hashes.len())` of `generate_buffer`. -/
def hInsert (h : Hashes) (c : List Nat) : Hashes :=
  (c, List.length h) :: h

/-- `generate_buffer` (record level): consult the fingerprint map; a hit
yields a duplicate-reference record and leaves the map unchanged, a miss
yields a unique record and registers the content under the next ordinal.
(`generate_buffer` is only ever called with regular-file metadata: on Linux
`fs::read` fails on directories, so the `is_dir` branches are dead.) -/
def generate_buffer (name : List Nat) (created modified : Nat)
    (content : List Nat) (hashes : Hashes) : KRecord × Hashes :=
  match hLookup hashes content with
  | some j => (KRecord.dupRef name created modified j, hashes)
  | none => (KRecord.unique name created modified content, hInsert hashes content)

/-- Serialization of one record exactly as `generate_buffer` writes it:
flag byte, length-prefixed name, two u64 timestamps, then either the u32
reference index (duplicate) or `raw_size`, `stored_size` and the compressed
payload (unique).  `encode` is the `flate2` compressor, a black box. -/
def serializeRecord (encode : List Nat → List Nat) : KRecord → List Nat
  | KRecord.unique name c m raw =>
    u8Bytes 0 ++ stringBytes name ++ u64Bytes c ++ u64Bytes m ++
    u64Bytes raw.length ++ u64Bytes (encode raw).length ++ encode raw
  | KRecord.dupRef name c m j =>
    u8Bytes 1 ++ stringBytes name ++ u64Bytes c ++ u64Bytes m ++ u32Bytes j

/-- All records, in write order. -/
def serializeRecords (encode : List Nat → List Nat) : List KRecord → List Nat
  | [] => []
  | r :: rs => serializeRecord encode r ++ serializeRecords encode rs

/-- `read_dir`: walk a directory's children in order; readable files go
through `generate_buffer` with the accumulated `dir_name/sep/file_name`
path (note: the stored name keeps the whole input-path prefix), directories
are recursed into with the extended prefix. -/
def read_dir (dirName : List Nat) (es : FsEntries) (hashes : Hashes) :
    List KRecord × Hashes :=
  match es with
  | FsEntries.nil => ([], hashes)
  | FsEntries.cons name (FsTree.file c m content) rest =>
    let rh := generate_buffer (dirName ++ sepL ++ name) c m content hashes
    let rest2 := read_dir dirName rest rh.2
    (rh.1 :: rest2.1, rest2.2)
  | FsEntries.cons name (FsTree.dir sub) rest =>
    let sub2 := read_dir (dirName ++ sepL ++ name) sub hashes
    let rest2 := read_dir dirName rest sub2.2
    (sub2.1 ++ rest2.1, rest2.2)

/- `get_number_of_files`: on Linux this computes the number of regular
files reachable from the path (a file counts as 1, a directory as the sum
over its children; counting happens before the walk, so unreadable entries
do not arise in this model). -/
mutual
def get_number_of_files : FsTree → Nat
  | FsTree.file _ _ _ => 1
  | FsTree.dir es => countFilesEntries es
def countFilesEntries : FsEntries → Nat
  | FsEntries.nil => 0
  | FsEntries.cons _ t rest => get_number_of_files t + countFilesEntries rest
end

/-- One regular file as encountered by the walk: the stored name (with the
input-path prefix baked in), its timestamps and content. -/
structure FileItem : Type where
  path : List Nat
  created : Nat
  modified : Nat
  content : List Nat
deriving DecidableEq

/-- The files `read_dir` visits, in visit order, with the stored names it
passes to `generate_buffer`. -/
def flattenEntries (dirName : List Nat) (es : FsEntries) : List FileItem :=
  match es with
  | FsEntries.nil => []
  | FsEntries.cons name (FsTree.file c m content) rest =>
    ⟨dirName ++ sepL ++ name, c, m, content⟩ :: flattenEntries dirName rest
  | FsEntries.cons name (FsTree.dir sub) rest =>
    flattenEntries (dirName ++ sepL ++ name) sub ++ flattenEntries dirName rest

/-- The relative paths and contents of a tree itself (no input-path
prefix): the spec's notion of the file tree `T` being archived. -/
def relFlatten (es : FsEntries) : List (List Nat × List Nat) :=
  match es with
  | FsEntries.nil => []
  | FsEntries.cons name (FsTree.file _ _ content) rest =>
    (name, content) :: relFlatten rest
  | FsEntries.cons name (FsTree.dir sub) rest =>
    (relFlatten sub).map (fun p => (name ++ sepL ++ p.1, p.2)) ++ relFlatten rest

/-- `generate_buffer` folded over a flat list of files (the walk without
the tree structure); `read_dir` is proved equal to this below. -/
def generateAll (hashes : Hashes) : List FileItem → List KRecord × Hashes
  | [] => ([], hashes)
  | f :: rest =>
    let rh := generate_buffer f.path f.created f.modified f.content hashes
    let rest2 := generateAll rh.2 rest
    (rh.1 :: rest2.1, rest2.2)

/-- Child lookup in a directory (`fs::read` / `fs::metadata` of one step). -/
def childLookup : FsEntries → List Nat → Option FsTree
  | FsEntries.nil, _ => none
  | FsEntries.cons n t rest, name => if n = name then some t else childLookup rest name

/-- `str::split(MAIN_SEPARATOR)`, a helper splitting on byte 47; empty
segments are produced exactly as Rust's `split` produces them. -/
def splitSepAux (cur : List Nat) : List Nat → List (List Nat)
  | [] => [cur.reverse]
  | b :: rest =>
    if b = 47 then cur.reverse :: splitSepAux [] rest
    else splitSepAux (b :: cur) rest

/-- Split a path on the separator. -/
def splitSep (bs : List Nat) : List (List Nat) := splitSepAux [] bs

/-- `Vec::join(MAIN_SEPARATOR_STR)`. -/
def joinSep : List (List Nat) → List Nat
  | [] => []
  | [s] => s
  | s :: rest => s ++ sepL ++ joinSep rest

/-- The `dir_name` the extractor computes for a formatted output path:
all separator-split segments but the last, re-joined. -/
def dirnameOf (p : List Nat) : List Nat := joinSep (splitSep p).dropLast

/-- Resolve a separator-split path against a tree. -/
def resolvePath (t : FsTree) : List (List Nat) → Option FsTree
  | [] => some t
  | seg :: rest =>
    match t with
    | FsTree.file _ _ _ => none
    | FsTree.dir es =>
      match childLookup es seg with
      | some c => resolvePath c rest
      | none => none

/-- Resolve an input path string against the current working directory
(the root `FsEntries` of the model). -/
def resolveInput (root : FsEntries) (input : List Nat) : Option FsTree :=
  resolvePath (FsTree.dir root) (splitSep input)

/-- `Path::new(&input).file_name()`: the last separator-split segment. -/
def lastSegment (input : List Nat) : List Nat := (splitSep input).getLastD []

/-- `output.ends_with(".kzip")` on byte lists. -/
def listEndsWith (l suf : List Nat) : Bool :=
  List.drop (l.length - suf.length) l == suf

/-- The writer's output path: append `.kzip` unless already suffixed
(src/main.rs lines 166-170).  Note it depends only on the requested name,
never on what already exists on disk. -/
def kzipOutputPath (output : List Nat) : List Nat :=
  if listEndsWith output (asciiOf ".kzip") then output
  else output ++ asciiOf ".kzip"

/-- The archive header: magic bytes 12, 10, 116 (summing to 138), the
length-prefixed version string, and the u32 entry count. -/
def headerBytes (nof : Nat) : List Nat :=
  [12, 10, 116] ++ stringBytes versionBytes ++ u32Bytes nof

/-- The `entry_count` the writer stores: `get_number_of_files` of the input
path, 0 when the path does not resolve. -/
def zipNof (root : FsEntries) (input : List Nat) : Nat :=
  match resolveInput root input with
  | some t => get_number_of_files t
  | none => 0

/-- The records the writer emits (src/main.rs lines 183-198).  A directory
input is walked by `read_dir` with the input path as prefix.  A single-file
input is read back via `fs::read(file_name)` — the BASENAME resolved
against the current working directory, not the input path — while the
metadata comes from the input path; if that basename is not a readable
file, no record is emitted at all. -/
def zipRecords (root : FsEntries) (input : List Nat) : List KRecord :=
  match resolveInput root input with
  | some (FsTree.dir es) => (read_dir input es []).1
  | some (FsTree.file c m _) =>
    match childLookup root (lastSegment input) with
    | some (FsTree.file _ _ content2) =>
      [(generate_buffer (lastSegment input) c m content2 []).1]
    | _ => []
  | none => []

/-- The full archive byte stream the writer produces. -/
def zipArchive (encode : List Nat → List Nat) (root : FsEntries)
    (input : List Nat) : List Nat :=
  headerBytes (zipNof root input) ++ serializeRecords encode (zipRecords root input)

/-- The sequence of `file.write` calls the writer performs on the output
file: the source accumulates the whole archive in one in-memory
`ByteBuffer` and performs exactly one write at the end (line 200). -/
def zipFileWriteEvents (encode : List Nat → List Nat) (root : FsEntries)
    (input : List Nat) : List (List Nat) :=
  [zipArchive encode root input]

/-- Replace-or-add on a flat path-to-bytes map (the world the output file
lives in). -/
def setAssoc (fs : List (List Nat × List Nat)) (k v : List Nat) :
    List (List Nat × List Nat) :=
  match fs with
  | [] => [(k, v)]
  | (k2, v2) :: rest => if k2 = k then (k, v) :: rest else (k2, v2) :: setAssoc rest k v

/-- Lookup on that map. -/
def getAssoc (fs : List (List Nat × List Nat)) (k : List Nat) : Option (List Nat) :=
  match fs with
  | [] => none
  | (k2, v2) :: rest => if k2 = k then some v2 else getAssoc rest k

/-- Effect of the write session on the output world: `File::create` opens
the computed path with create-or-TRUNCATE semantics, so the archive bytes
replace whatever was stored there before. -/
def zipFinalFs (encode : List Nat → List Nat) (root : FsEntries)
    (input output : List Nat) (prior : List (List Nat × List Nat)) :
    List (List Nat × List Nat) :=
  setAssoc prior (kzipOutputPath output) (zipArchive encode root input)

/-- Failure modes of the reader.  `panicStop` models any `.unwrap()` panic
(truncated stream, missing cache entry, unreadable cached file);
`invalidHeader` is the explicit bad-magic rejection with `exit(1)`;
`divByZero` is the u64 division-by-zero panic in the listing summary. -/
inductive XErr : Type where
  | invalidHeader : XErr
  | panicStop : XErr
  | divByZero : XErr
deriving DecidableEq

/-- A file-system effect of the extractor: `create_dir_all` on a path, or
creating/writing a file with the given content. -/
inductive WEvent : Type where
  | mkdir : List Nat → WEvent
  | fwrite : List Nat → List Nat → WEvent
deriving DecidableEq

/-- `fs::read` against the files written so far in this extraction run
(the duplicate branch reads the cached path back from disk); the latest
write to a path wins, so the tail of the event list is consulted first. -/
def lookupWrite : List WEvent → List Nat → Option (List Nat)
  | [], _ => none
  | WEvent.mkdir _ :: rest, p => lookupWrite rest p
  | WEvent.fwrite q c :: rest, p =>
    match lookupWrite rest p with
    | some c2 => some c2
    | none => if q = p then some c else none

/-- The extractor's `HashMap<u32, String>` cache: unique-entry ordinal to
written path. -/
def cacheLookup : List (Nat × List Nat) → Nat → Option (List Nat)
  | [], _ => none
  | (i, p) :: rest, j => if i = j then some p else cacheLookup rest j

/-- The extraction loop (src/main.rs lines 223-294), one iteration per
count of `nof`.  `decode` is the `flate2` decompressor (black box).  When
`read_string` fails the source skips the body and decrements `nof`
(modelled as recursing on the same stream position); every other failed
read is an `.unwrap()` panic. -/
def extractLoop (decode : List Nat → Nat → List Nat) (output : List Nat) :
    Nat → List Nat → List (Nat × List Nat) → Nat → List WEvent →
    Except XErr (List WEvent)
  | 0, _, _, _, ws => Except.ok ws
  | nof + 1, bytes, cache, idx, ws =>
    match readU8 bytes with
    | none => Except.error XErr.panicStop
    | some (isDup, b1) =>
      match readString b1 with
      | none => extractLoop decode output nof b1 cache idx ws
      | some (fname, b2) =>
        match readU64 b2 with
        | none => Except.error XErr.panicStop
        | some (_, b3) =>
          match readU64 b3 with
          | none => Except.error XErr.panicStop
          | some (_, b4) =>
            if isDup = 1 then
              match readU32 b4 with
              | none => Except.error XErr.panicStop
              | some (savedIdx, b5) =>
                match cacheLookup cache savedIdx with
                | none => Except.error XErr.panicStop
                | some cachedName =>
                  match lookupWrite ws cachedName with
                  | none => Except.error XErr.panicStop
                  | some content =>
                    extractLoop decode output nof b5 cache idx
                      (ws ++ [WEvent.mkdir (dirnameOf (output ++ sepL ++ fname)),
                              WEvent.fwrite (output ++ sepL ++ fname) content])
            else
              match readU64 b4 with
              | none => Except.error XErr.panicStop
              | some (unpacked, b5) =>
                match readU64 b5 with
                | none => Except.error XErr.panicStop
                | some (len, b6) =>
                  match readBytes len b6 with
                  | none => Except.error XErr.panicStop
                  | some (payload, b7) =>
                    extractLoop decode output nof b7
                      ((idx, output ++ sepL ++ fname) :: cache) (idx + 1)
                      (ws ++ [WEvent.mkdir (dirnameOf (output ++ sepL ++ fname)),
                              WEvent.fwrite (output ++ sepL ++ fname)
                                (decode payload unpacked)])

/-- The extract operation (src/main.rs lines 203-301): read the first three
bytes into a `u8` accumulator (wrapping, hence the `% 256`), reject with
`InvalidHeader` and exit 1 when the wrapped sum differs from 138, otherwise
create the output directory, read the version string and entry count, and
run the loop.  The returned event list is everything written to disk. -/
def extractOp (decode : List Nat → Nat → List Nat) (bytes output : List Nat) :
    Except XErr (List WEvent) :=
  match bytes with
  | b0 :: b1 :: b2 :: rest =>
    if (b0 + b1 + b2) % 256 = 138 then
      match readString rest with
      | none => Except.error XErr.panicStop
      | some (_, r1) =>
        match readU32 r1 with
        | none => Except.error XErr.panicStop
        | some (nof, r2) =>
          extractLoop decode output nof r2 [] 0 [WEvent.mkdir output]
    else Except.error XErr.invalidHeader
  | _ => Except.error XErr.panicStop

/-- The listing loop (src/main.rs lines 113-145): accumulate packed and
unpacked totals over unique entries, skipping duplicate entries' u32 and
unique entries' payload bytes. -/
def listLoop : Nat → List Nat → Nat → Nat → Except XErr (Nat × Nat)
  | 0, _, tl, tul => Except.ok (tl, tul)
  | nof + 1, bytes, tl, tul =>
    match readU8 bytes with
    | none => Except.error XErr.panicStop
    | some (isDup, b1) =>
      match readString b1 with
      | none => listLoop nof b1 tl tul
      | some (_, b2) =>
        match readU64 b2 with
        | none => Except.error XErr.panicStop
        | some (_, b3) =>
          match readU64 b3 with
          | none => Except.error XErr.panicStop
          | some (_, b4) =>
            if isDup = 1 then
              match readU32 b4 with
              | none => Except.error XErr.panicStop
              | some (_, b5) => listLoop nof b5 tl tul
            else
              match readU64 b4 with
              | none => Except.error XErr.panicStop
              | some (unpacked, b5) =>
                match readU64 b5 with
                | none => Except.error XErr.panicStop
                | some (len, b6) =>
                  match readBytes len b6 with
                  | none => Except.error XErr.panicStop
                  | some (_, b7) => listLoop nof b7 (tl + len) (tul + unpacked)

/-- The listing summary the source prints after the loop. -/
structure ListSummary : Type where
  totalFiles : Nat
  totalPacked : Nat
  totalUnpacked : Nat
  ratio : Nat
deriving DecidableEq

/-- The list operation (src/main.rs lines 93-164): same wrapped header
check, then totals, then `total_unpacked_length / total_length` — a u64
division that PANICS when the denominator is zero, modelled as
`divByZero`; there is no special case for it in the source. -/
def listOp (bytes : List Nat) : Except XErr ListSummary :=
  match bytes with
  | b0 :: b1 :: b2 :: rest =>
    if (b0 + b1 + b2) % 256 = 138 then
      match readString rest with
      | none => Except.error XErr.panicStop
      | some (_, r1) =>
        match readU32 r1 with
        | none => Except.error XErr.panicStop
        | some (nof, r2) =>
          match listLoop nof r2 0 0 with
          | Except.error e => Except.error e
          | Except.ok (tl, tul) =>
            if tl = 0 then Except.error XErr.divByZero
            else Except.ok ⟨nof, tl, tul, tul / tl⟩
    else Except.error XErr.invalidHeader
  | _ => Except.error XErr.panicStop

/-- Lexical path resolution (claim side): drop empty and `.` segments,
let `..` pop the previous segment when one is available and survive
otherwise, so a resolved path that still starts with `..` (byte pair
46, 46) points above its starting directory. -/
def resolveSegs (acc : List (List Nat)) : List (List Nat) → List (List Nat)
  | [] => acc
  | s :: rest =>
    if s = [] ∨ s = [46] then resolveSegs acc rest
    else if s = [46, 46] then
      match acc.getLast? with
      | some t => if t = [46, 46] then resolveSegs (acc ++ [s]) rest
                  else resolveSegs acc.dropLast rest
      | none => resolveSegs [s] rest
    else resolveSegs (acc ++ [s]) rest

/-- Lexically resolved segments of a path. -/
def lexResolve (p : List Nat) : List (List Nat) := resolveSegs [] (splitSep p)

/-- Claim side: `p` denotes a location strictly inside the directory
`outDir` (after lexical resolution, `p`'s segments strictly extend
`outDir`'s). -/
def isInsideDir (outDir p : List Nat) : Bool :=
  let a := lexResolve outDir
  let b := lexResolve p
  (List.take a.length b == a) && decide (a.length < b.length)

/-- The regular-file writes among the extractor's effects, in order. -/
def fwritesOf (ws : List WEvent) : List (List Nat × List Nat) :=
  ws.filterMap (fun e =>
    match e with
    | WEvent.fwrite p c => some (p, c)
    | WEvent.mkdir _ => none)

/-- Strip a directory prefix (`outDir` plus separator) from a path. -/
def stripDirPrefix (outDir p : List Nat) : List Nat :=
  List.drop (outDir.length + sepL.length) p

/-! ### Writer-side invariants and the extraction simulation. -/

/-- The disk effects extraction is expected to produce for a file list:
for each file, `create_dir_all` on the parent and a write of its content
at `output/sep/stored-name`. -/
def expectedWrites (output : List Nat) : List FileItem → List WEvent
  | [] => []
  | f :: rest =>
    WEvent.mkdir (dirnameOf (output ++ sepL ++ f.path)) ::
    WEvent.fwrite (output ++ sepL ++ f.path) f.content ::
    expectedWrites output rest

/-- Size sanity bounds that hold of any real file (name fits in u32,
sizes and timestamps in u64), needed for the integer codec to round-trip. -/
def GoodFile (encode : List Nat → List Nat) (f : FileItem) : Prop :=
  f.path.length < 2 ^ 32 ∧ f.created < 2 ^ 64 ∧ f.modified < 2 ^ 64 ∧
  f.content.length < 2 ^ 64 ∧ (encode f.content).length < 2 ^ 64

instance (encode : List Nat → List Nat) (f : FileItem) :
    Decidable (GoodFile encode f) := by
  unfold GoodFile
  infer_instance

/-- Contents of the unique records of a record list, in order: the
ordinal space that `reference_index` points into. -/
def uniqueRaws (rs : List KRecord) : List (List Nat) :=
  rs.filterMap (fun r =>
    match r with
    | KRecord.unique _ _ _ raw => some raw
    | KRecord.dupRef _ _ _ _ => none)

/-- Invariant tying the fingerprint map to the unique contents emitted so
far: the map has one entry per unique record, and every stored ordinal
points at the matching content. -/
def HashInv (h : Hashes) (us : List (List Nat)) : Prop :=
  List.length h = us.length ∧ ∀ C j, hLookup h C = some j → us[j]? = some C

/-- Number of unique records in a record list: the ordinal space that a
later `reference_index` may point into. -/
def uniqueCount (rs : List KRecord) : Nat := (uniqueRaws rs).length

/-! ### Codec lemmas: each `read*` undoes the corresponding `write*`. -/

theorem readU8_u8Bytes (n : Nat) (rest : List Nat) :
    readU8 (u8Bytes n ++ rest) = some (n % 256, rest) := by
  simp [u8Bytes, readU8]

theorem readU32_u32Bytes (n : Nat) (rest : List Nat) (h : n < 2 ^ 32) :
    readU32 (u32Bytes n ++ rest) = some (n, rest) := by
  simp only [u32Bytes, List.cons_append, List.nil_append, readU32,
    Option.some.injEq, Prod.mk.injEq, and_true]
  omega

theorem readU64_u64Bytes (n : Nat) (rest : List Nat) (h : n < 2 ^ 64) :
    readU64 (u64Bytes n ++ rest) = some (n, rest) := by
  simp only [u64Bytes, List.cons_append, List.nil_append, readU64,
    Option.some.injEq, Prod.mk.injEq, and_true]
  omega

theorem readBytes_exact (l rest : List Nat) :
    readBytes l.length (l ++ rest) = some (l, rest) := by
  simp [readBytes, List.take_append, List.drop_append]

theorem readString_stringBytes (s rest : List Nat) (h : s.length < 2 ^ 32) :
    readString (stringBytes s ++ rest) = some (s, rest) := by
  simp only [stringBytes, List.append_assoc]
  rw [readString, readU32_u32Bytes s.length (s ++ rest) h]
  exact readBytes_exact s rest

theorem readU8_u8Bytes_small (n : Nat) (rest : List Nat) (h : n < 256) :
    readU8 (u8Bytes n ++ rest) = some (n, rest) := by
  simp [u8Bytes, readU8, Nat.mod_eq_of_lt h]

/-! ### Write-lookup lemmas for the extraction run. -/

theorem lookupWrite_append (ws1 ws2 : List WEvent) (p : List Nat) :
    lookupWrite (ws1 ++ ws2) p =
      match lookupWrite ws2 p with
      | some c => some c
      | none => lookupWrite ws1 p := by
  induction ws1 with
  | nil =>
    simp only [List.nil_append, lookupWrite]
    cases lookupWrite ws2 p <;> rfl
  | cons e rest ih =>
    cases e with
    | mkdir d => simpa only [List.cons_append, lookupWrite] using ih
    | fwrite q c =>
      simp only [List.cons_append, lookupWrite]
      cases h2 : lookupWrite ws2 p <;> cases h1 : lookupWrite (rest ++ ws2) p <;>
        simp only [ih, h2, Option.some.injEq] at h1 <;>
        first
        | exact Option.noConfusion h1
        | simp [lookupWrite, h1, h2]

theorem lookupWrite_snoc_ne (ws : List WEvent) (d q c p : List Nat) (h : p ≠ q) :
    lookupWrite (ws ++ [WEvent.mkdir d, WEvent.fwrite q c]) p = lookupWrite ws p := by
  rw [lookupWrite_append]
  simp [lookupWrite, Ne.symm h]

theorem lookupWrite_snoc_self (ws : List WEvent) (d q c : List Nat) :
    lookupWrite (ws ++ [WEvent.mkdir d, WEvent.fwrite q c]) q = some c := by
  rw [lookupWrite_append]
  simp [lookupWrite]

/-! ### One loop iteration of the extractor per record shape. -/

theorem extractLoop_step_dup (decode : List Nat → Nat → List Nat)
    (encode : List Nat → List Nat) (output name p content : List Nat)
    (c m j n idx : Nat) (cache : List (Nat × List Nat)) (ws : List WEvent)
    (more : List Nat)
    (hpath : name.length < 2 ^ 32) (hc : c < 2 ^ 64) (hm : m < 2 ^ 64)
    (hj : j < 2 ^ 32) (hcache : cacheLookup cache j = some p)
    (hws : lookupWrite ws p = some content) :
    extractLoop decode output (n + 1)
      (serializeRecord encode (KRecord.dupRef name c m j) ++ more) cache idx ws =
    extractLoop decode output n more cache idx
      (ws ++ [WEvent.mkdir (dirnameOf (output ++ sepL ++ name)),
              WEvent.fwrite (output ++ sepL ++ name) content]) := by
  have hs : ∀ r, readString (stringBytes name ++ r) = some (name, r) :=
    fun r => readString_stringBytes name r hpath
  have hc8 : ∀ r, readU64 (u64Bytes c ++ r) = some (c, r) :=
    fun r => readU64_u64Bytes c r hc
  have hm8 : ∀ r, readU64 (u64Bytes m ++ r) = some (m, r) :=
    fun r => readU64_u64Bytes m r hm
  have hj4 : ∀ r, readU32 (u32Bytes j ++ r) = some (j, r) :=
    fun r => readU32_u32Bytes j r hj
  have h1 : ∀ r, readU8 (u8Bytes 1 ++ r) = some (1, r) :=
    fun r => readU8_u8Bytes_small 1 r (by norm_num)
  simp [serializeRecord, List.append_assoc, extractLoop, h1, hs, hc8, hm8,
    hj4, hcache, hws]

theorem extractLoop_step_unique (decode : List Nat → Nat → List Nat)
    (encode : List Nat → List Nat) (output name : List Nat)
    (c m n idx : Nat) (raw : List Nat) (cache : List (Nat × List Nat))
    (ws : List WEvent) (more : List Nat)
    (hpath : name.length < 2 ^ 32) (hc : c < 2 ^ 64) (hm : m < 2 ^ 64)
    (hraw : raw.length < 2 ^ 64) (henc : (encode raw).length < 2 ^ 64) :
    extractLoop decode output (n + 1)
      (serializeRecord encode (KRecord.unique name c m raw) ++ more) cache idx ws =
    extractLoop decode output n more ((idx, output ++ sepL ++ name) :: cache) (idx + 1)
      (ws ++ [WEvent.mkdir (dirnameOf (output ++ sepL ++ name)),
              WEvent.fwrite (output ++ sepL ++ name)
                (decode (encode raw) raw.length)]) := by
  have hs : ∀ r, readString (stringBytes name ++ r) = some (name, r) :=
    fun r => readString_stringBytes name r hpath
  have hc8 : ∀ r, readU64 (u64Bytes c ++ r) = some (c, r) :=
    fun r => readU64_u64Bytes c r hc
  have hm8 : ∀ r, readU64 (u64Bytes m ++ r) = some (m, r) :=
    fun r => readU64_u64Bytes m r hm
  have hr8 : ∀ r, readU64 (u64Bytes raw.length ++ r) = some (raw.length, r) :=
    fun r => readU64_u64Bytes raw.length r hraw
  have he8 : ∀ r, readU64 (u64Bytes (encode raw).length ++ r) =
      some ((encode raw).length, r) :=
    fun r => readU64_u64Bytes (encode raw).length r henc
  have h0 : ∀ r, readU8 (u8Bytes 0 ++ r) = some (0, r) :=
    fun r => readU8_u8Bytes_small 0 r (by norm_num)
  have hb : ∀ r, readBytes (encode raw).length (encode raw ++ r) =
      some (encode raw, r) :=
    fun r => readBytes_exact (encode raw) r
  simp [serializeRecord, List.append_assoc, extractLoop, h0, hs, hc8, hm8,
    hr8, he8, hb]

theorem hashInv_nil : HashInv [] [] := by
  constructor
  · rfl
  · intro C j hj
    simp [hLookup] at hj

theorem hashInv_lookup_lt {h : Hashes} {us : List (List Nat)} {c : List Nat}
    {j : Nat} (hi : HashInv h us) (hl : hLookup h c = some j) : j < us.length := by
  have := hi.2 c j hl
  exact (List.getElem?_eq_some.mp this).1

theorem hashInv_insert {h : Hashes} {us : List (List Nat)} {c : List Nat}
    (hi : HashInv h us) : HashInv (hInsert h c) (us ++ [c]) := by
  constructor
  · simp [hInsert, hi.1]
  · intro C j hj
    simp only [hInsert, hLookup] at hj
    by_cases hc : c = C
    · subst hc
      rw [if_pos rfl, Option.some.injEq] at hj
      subst hj
      rw [hi.1]
      exact List.getElem?_concat_length us c
    · rw [if_neg hc] at hj
      have h2 := hi.2 C j hj
      have hlt : j < us.length := (List.getElem?_eq_some.mp h2).1
      rw [List.getElem?_append]
      simpa [hlt] using h2

theorem extractLoop_generateAll (decode : List Nat → Nat → List Nat)
    (encode : List Nat → List Nat) (output : List Nat)
    (hdec : ∀ b, decode (encode b) b.length = b) :
    ∀ (files : List FileItem) (h : Hashes) (us : List (List Nat))
      (cache : List (Nat × List Nat)) (ws : List WEvent) (tail : List Nat),
    HashInv h us →
    (∀ j C, us[j]? = some C → ∃ p, cacheLookup cache j = some p ∧
        lookupWrite ws p = some C ∧
        p ∉ files.map (fun g => output ++ sepL ++ g.path)) →
    (∀ g ∈ files, GoodFile encode g) →
    (files.map FileItem.path).Nodup →
    us.length + files.length < 2 ^ 32 →
    extractLoop decode output files.length
        (serializeRecords encode (generateAll h files).1 ++ tail) cache us.length ws =
      Except.ok (ws ++ expectedWrites output files) := by
  intro files
  induction files with
  | nil =>
    intro h us cache ws tail _ _ _ _ _
    simp [generateAll, serializeRecords, extractLoop, expectedWrites]
  | cons f rest ih =>
    intro h us cache ws tail hinv hcache hgood hnodup hbound
    obtain ⟨hplen, hc64, hm64, hr64, he64⟩ := hgood f (List.mem_cons_self f rest)
    have hgood2 : ∀ g ∈ rest, GoodFile encode g :=
      fun g hgm => hgood g (List.mem_cons_of_mem f hgm)
    rw [List.map_cons] at hnodup
    have hnd := List.nodup_cons.mp hnodup
    have hnodup2 : (rest.map FileItem.path).Nodup := hnd.2
    have hfnotin : f.path ∉ rest.map FileItem.path := hnd.1
    have hqnotin : (output ++ sepL ++ f.path) ∉
        rest.map (fun g => output ++ sepL ++ g.path) := by
      intro hmem
      obtain ⟨g, hgm, heq⟩ := List.mem_map.mp hmem
      have h1 : output ++ (sepL ++ g.path) = output ++ (sepL ++ f.path) := by
        rw [← List.append_assoc, ← List.append_assoc]
        exact heq
      have hpe : g.path = f.path :=
        List.append_cancel_left (List.append_cancel_left h1)
      exact hfnotin (hpe ▸ List.mem_map_of_mem FileItem.path hgm)
    have hblen : us.length + (f :: rest).length = us.length + rest.length + 1 := by
      simp only [List.length_cons]
      omega
    cases hg : hLookup h f.content with
    | some j =>
      have hus : us[j]? = some f.content := hinv.2 f.content j hg
      have hjlt : j < us.length := (List.getElem?_eq_some.mp hus).1
      obtain ⟨p, hp1, hp2, hp3⟩ := hcache j f.content hus
      have hpne : p ≠ output ++ sepL ++ f.path := by
        intro hpe
        exact hp3 (by rw [hpe]; simp)
      have hrec : (generateAll h (f :: rest)).1 =
          KRecord.dupRef f.path f.created f.modified j :: (generateAll h rest).1 := by
        simp [generateAll, generate_buffer, hg]
      rw [hrec]
      simp only [serializeRecords, List.append_assoc, List.length_cons]
      rw [extractLoop_step_dup decode encode output f.path p f.content
        f.created f.modified j rest.length us.length cache ws
        (serializeRecords encode (generateAll h rest).1 ++ tail)
        hplen hc64 hm64 (by omega) hp1 hp2]
      rw [ih h us cache
        (ws ++ [WEvent.mkdir (dirnameOf (output ++ sepL ++ f.path)),
                WEvent.fwrite (output ++ sepL ++ f.path) f.content]) tail hinv
        ?_ hgood2 hnodup2 (by omega)]
      · simp [expectedWrites]
      · intro j2 C hj2
        obtain ⟨p2, hq1, hq2, hq3⟩ := hcache j2 C hj2
        have hp2ne : p2 ≠ output ++ sepL ++ f.path := by
          intro hpe
          exact hq3 (by rw [hpe]; simp)
        refine ⟨p2, hq1, ?_, ?_⟩
        · rw [lookupWrite_snoc_ne _ _ _ _ _ hp2ne]
          exact hq2
        · intro hmem
          exact hq3 (by simpa using Or.inr hmem)
    | none =>
      have hrec : (generateAll h (f :: rest)).1 =
          KRecord.unique f.path f.created f.modified f.content ::
            (generateAll (hInsert h f.content) rest).1 := by
        simp [generateAll, generate_buffer, hg]
      rw [hrec]
      simp only [serializeRecords, List.append_assoc, List.length_cons]
      rw [extractLoop_step_unique decode encode output f.path
        f.created f.modified rest.length us.length f.content cache ws
        (serializeRecords encode (generateAll (hInsert h f.content) rest).1 ++ tail)
        hplen hc64 hm64 hr64 he64]
      rw [hdec f.content]
      have hlen2 : us.length + 1 = (us ++ [f.content]).length := by simp
      rw [hlen2]
      rw [ih (hInsert h f.content) (us ++ [f.content])
        ((us.length, output ++ sepL ++ f.path) :: cache)
        (ws ++ [WEvent.mkdir (dirnameOf (output ++ sepL ++ f.path)),
                WEvent.fwrite (output ++ sepL ++ f.path) f.content]) tail
        (hashInv_insert hinv) ?_ hgood2 hnodup2 (by simp; omega)]
      · simp [expectedWrites]
      · intro j2 C hj2
        by_cases hlt : j2 < us.length
        · have hj2u : us[j2]? = some C := by
            rw [List.getElem?_append] at hj2
            simpa [hlt] using hj2
          obtain ⟨p2, hq1, hq2, hq3⟩ := hcache j2 C hj2u
          have hp2ne : p2 ≠ output ++ sepL ++ f.path := by
            intro hpe
            exact hq3 (by rw [hpe]; simp)
          refine ⟨p2, ?_, ?_, ?_⟩
          · simp only [cacheLookup, if_neg (by omega : ¬us.length = j2)]
            exact hq1
          · rw [lookupWrite_snoc_ne _ _ _ _ _ hp2ne]
            exact hq2
          · intro hmem
            exact hq3 (by simpa using Or.inr hmem)
        · have hj2lt : j2 < (us ++ [f.content]).length :=
            (List.getElem?_eq_some.mp hj2).1
          have hj2e : j2 = us.length := by
            simp at hj2lt
            omega
          subst hj2e
          have hC : C = f.content := by
            rw [List.getElem?_concat_length] at hj2
            exact (Option.some.injEq _ _ ▸ hj2).symm
          subst hC
          refine ⟨output ++ sepL ++ f.path, ?_, ?_, hqnotin⟩
          · simp [cacheLookup]
          · exact lookupWrite_snoc_self ws _ _ _

theorem generateAll_append (l1 l2 : List FileItem) :
    ∀ h : Hashes, generateAll h (l1 ++ l2) =
      ((generateAll h l1).1 ++ (generateAll (generateAll h l1).2 l2).1,
       (generateAll (generateAll h l1).2 l2).2) := by
  induction l1 with
  | nil => intro h; simp [generateAll]
  | cons f rest ih =>
    intro h
    simp only [List.cons_append, generateAll, List.append_eq, ih]

/-- `read_dir` is the dedup fold over the flat visit order. -/
theorem read_dir_eq_generateAll : ∀ (d : List Nat) (es : FsEntries) (h : Hashes),
    read_dir d es h = generateAll h (flattenEntries d es) := by
  intro d es
  induction d, es using flattenEntries.induct with
  | case1 d =>
    intro h
    simp [read_dir, flattenEntries, generateAll]
  | case2 d name c m content rest ih =>
    intro h
    simp only [read_dir, flattenEntries, generateAll, ih]
  | case3 d name sub rest ih1 ih2 =>
    intro h
    simp only [read_dir, flattenEntries]
    rw [generateAll_append, ih1, ih2]

/-- The writer's precomputed `entry_count` equals the number of files the
walk visits. -/
theorem flattenEntries_length : ∀ (d : List Nat) (es : FsEntries),
    (flattenEntries d es).length = countFilesEntries es := by
  intro d es
  induction d, es using flattenEntries.induct with
  | case1 d => simp [flattenEntries, countFilesEntries]
  | case2 d name c m content rest ih =>
    simp only [flattenEntries, List.length_cons, countFilesEntries,
      get_number_of_files, ih]
    omega
  | case3 d name sub rest ih1 ih2 =>
    simp only [flattenEntries, List.length_append, countFilesEntries,
      get_number_of_files, ih1, ih2]

/-- Extraction of an archive the writer produced from a directory input:
the output-directory `mkdir` followed, in visit order, by a parent `mkdir`
and a content write per file, each at `output/sep/stored-name` with the
original bytes. -/
theorem extractOp_zipArchive_dir (decode : List Nat → Nat → List Nat)
    (encode : List Nat → List Nat) (root es : FsEntries)
    (input output : List Nat)
    (hdec : ∀ b, decode (encode b) b.length = b)
    (hres : resolveInput root input = some (FsTree.dir es))
    (hgood : ∀ g ∈ flattenEntries input es, GoodFile encode g)
    (hnodup : ((flattenEntries input es).map FileItem.path).Nodup)
    (hcount : (flattenEntries input es).length < 2 ^ 32) :
    extractOp decode (zipArchive encode root input) output =
      Except.ok (WEvent.mkdir output ::
        expectedWrites output (flattenEntries input es)) := by
  have hrecs : zipRecords root input =
      (generateAll [] (flattenEntries input es)).1 := by
    simp [zipRecords, hres, read_dir_eq_generateAll]
  have hnof : zipNof root input = (flattenEntries input es).length := by
    simp [zipNof, hres, get_number_of_files, flattenEntries_length]
  have hsim := extractLoop_generateAll decode encode output hdec
    (flattenEntries input es) [] [] [] [WEvent.mkdir output] []
    hashInv_nil
    (by intro j C hj; simp at hj)
    hgood hnodup (by simpa using hcount)
  rw [List.append_nil] at hsim
  have hv : versionBytes.length < 2 ^ 32 := by decide
  rw [zipArchive, hrecs, hnof]
  simp only [headerBytes, List.cons_append, List.nil_append, List.append_assoc]
  rw [extractOp]
  norm_num
  have h32 : ∀ r, readU32 (u32Bytes (flattenEntries input es).length ++ r) =
      some ((flattenEntries input es).length, r) :=
    fun r => readU32_u32Bytes _ r hcount
  rw [readString_stringBytes versionBytes _ hv]
  simp only [h32]
  exact hsim

theorem getAssoc_setAssoc (fs : List (List Nat × List Nat)) (k v : List Nat) :
    getAssoc (setAssoc fs k v) k = some v := by
  induction fs with
  | nil => simp [setAssoc, getAssoc]
  | cons kv rest ih =>
    obtain ⟨k2, v2⟩ := kv
    by_cases hk : k2 = k
    · simp [setAssoc, getAssoc, hk]
    · simp [setAssoc, getAssoc, hk, ih]

theorem fwritesOf_expectedWrites (output : List Nat) (files : List FileItem) :
    fwritesOf (expectedWrites output files) =
      files.map (fun f => (output ++ sepL ++ f.path, f.content)) := by
  induction files with
  | nil => simp [expectedWrites, fwritesOf]
  | cons f rest ih =>
    simp [expectedWrites, fwritesOf] at ih ⊢
    exact ih

/-- Positional form of the dedup invariant: any reference emitted by the
fold points strictly below the number of unique records written before it
(offset by the uniques already registered in the incoming map). -/
theorem generateAll_dup_bound :
    ∀ (files : List FileItem) (h : Hashes) (us : List (List Nat)),
    HashInv h us →
    ∀ i name c m k, ((generateAll h files).1)[i]? = some (KRecord.dupRef name c m k) →
    k < us.length + uniqueCount (((generateAll h files).1).take i) := by
  intro files
  induction files with
  | nil =>
    intro h us _ i name c m k hi
    simp [generateAll] at hi
  | cons f rest ih =>
    intro h us hinv i name c m k hi
    cases hg : hLookup h f.content with
    | some j =>
      have hrec : (generateAll h (f :: rest)).1 =
          KRecord.dupRef f.path f.created f.modified j :: (generateAll h rest).1 := by
        simp [generateAll, generate_buffer, hg]
      rw [hrec] at hi ⊢
      cases i with
      | zero =>
        simp only [List.getElem?_cons_zero, Option.some.injEq,
          KRecord.dupRef.injEq] at hi
        have hjlt : j < us.length := hashInv_lookup_lt hinv hg
        have hk : j = k := hi.2.2.2
        simp [uniqueCount, uniqueRaws]
        omega
      | succ i2 =>
        rw [List.getElem?_cons_succ] at hi
        have hih := ih h us hinv i2 name c m k hi
        simpa [uniqueCount, uniqueRaws, List.take_succ_cons] using hih
    | none =>
      have hrec : (generateAll h (f :: rest)).1 =
          KRecord.unique f.path f.created f.modified f.content ::
            (generateAll (hInsert h f.content) rest).1 := by
        simp [generateAll, generate_buffer, hg]
      rw [hrec] at hi ⊢
      cases i with
      | zero => simp at hi
      | succ i2 =>
        rw [List.getElem?_cons_succ] at hi
        have hih := ih (hInsert h f.content) (us ++ [f.content])
          (hashInv_insert hinv) i2 name c m k hi
        simp only [List.length_append, List.length_cons, List.length_nil,
          uniqueCount, uniqueRaws, List.take_succ_cons, List.filterMap_cons] at hih ⊢
        omega

/-- Extracting a crafted archive holding exactly one unique record: the
reader creates the output directory, creates the parent directory the
formatted path implies, and writes `decode(payload, raw_size)` at
`output ++ sep ++ stored-name`, the stored name joined verbatim. -/
theorem extractOp_single_unique (decode : List Nat → Nat → List Nat)
    (encode : List Nat → List Nat) (output name : List Nat) (c m : Nat)
    (raw : List Nat)
    (hplen : name.length < 2 ^ 32) (hc : c < 2 ^ 64) (hm : m < 2 ^ 64)
    (hr : raw.length < 2 ^ 64) (he : (encode raw).length < 2 ^ 64) :
    extractOp decode
      (headerBytes 1 ++ serializeRecord encode (KRecord.unique name c m raw))
      output =
      Except.ok [WEvent.mkdir output,
        WEvent.mkdir (dirnameOf (output ++ sepL ++ name)),
        WEvent.fwrite (output ++ sepL ++ name) (decode (encode raw) raw.length)] := by
  have hv : versionBytes.length < 2 ^ 32 := by decide
  have h32 : ∀ r, readU32 (u32Bytes 1 ++ r) = some (1, r) :=
    fun r => readU32_u32Bytes 1 r (by norm_num)
  simp only [headerBytes, List.cons_append, List.nil_append, List.append_assoc]
  rw [extractOp]
  norm_num
  rw [readString_stringBytes versionBytes _ hv]
  simp only [h32]
  rw [show serializeRecord encode (KRecord.unique name c m raw) =
    serializeRecord encode (KRecord.unique name c m raw) ++ []
    from (List.append_nil _).symm]
  rw [extractLoop_step_unique decode encode output name c m 0 0 raw []
    [WEvent.mkdir output] [] hplen hc hm hr he]
  simp [extractLoop]

/-- C4, counterexample.  The header accumulator is a `u8`, so the check
wraps modulo 256: the file starting 255, 139, 0 has a first-three-byte sum
of 394 ≠ 138, yet extraction does NOT fail with `InvalidHeader` — it
succeeds and creates the output directory. -/
theorem C4_counterexample :
    (255 + 139 + 0 ≠ 138) ∧
    extractOp (fun b _ => b)
      ([255, 139, 0] ++ stringBytes versionBytes ++ u32Bytes 0)
      (asciiOf "out") = Except.ok [WEvent.mkdir (asciiOf "out")] := by
  constructor
  · decide
  · rfl

/-- C4, amended: the rejection criterion is the WRAPPED (mod-256) sum of
the first three bytes.  Whenever that wrapped sum differs from 138, both
the list and the extract operation fail with `InvalidHeader` (modelling
the `exit(1)` taken before any entry is parsed and before
`create_dir_if_not_exists` runs, so no output is produced). -/
theorem C4_wrapped_header_check (decode : List Nat → Nat → List Nat)
    (b0 b1 b2 : Nat) (rest out : List Nat)
    (h : (b0 + b1 + b2) % 256 ≠ 138) :
    extractOp decode (b0 :: b1 :: b2 :: rest) out =
      Except.error XErr.invalidHeader ∧
    listOp (b0 :: b1 :: b2 :: rest) = Except.error XErr.invalidHeader := by
  constructor
  · rw [extractOp, if_neg h]
  · rw [listOp, if_neg h]

/-- C4, witness for the amended theorem at a concrete rejected input. -/
theorem C4_wrapped_header_check_witness :
    extractOp (fun b _ => b) [0, 0, 0] [] = Except.error XErr.invalidHeader ∧
    listOp [0, 0, 0] = Except.error XErr.invalidHeader :=
  C4_wrapped_header_check (fun b _ => b) 0 0 0 [] [] (by decide)

/-- C6, counterexample.  A well-formed archive with zero entries has zero
total compressed bytes; the summary division `total_unpacked / total_len`
is NOT special-cased and the list operation fails (u64 division by zero
panics) instead of reporting a summary. -/
theorem C6_counterexample :
    (12 + 10 + 116) % 256 = 138 ∧
    listOp (headerBytes 0) = Except.error XErr.divByZero := by
  constructor
  · decide
  · rfl

/-- C6, amended: whenever the entry loop completes with zero accumulated
compressed bytes, the list operation aborts with the division-by-zero
panic; no special case exists in the code. -/
theorem C6_ratio_div_by_zero (b0 b1 b2 : Nat) (rest v r1 r2 : List Nat)
    (n tul : Nat)
    (hmk : (b0 + b1 + b2) % 256 = 138)
    (hver : readString rest = some (v, r1))
    (hnof : readU32 r1 = some (n, r2))
    (hloop : listLoop n r2 0 0 = Except.ok (0, tul)) :
    listOp (b0 :: b1 :: b2 :: rest) = Except.error XErr.divByZero := by
  rw [listOp, if_pos hmk, hver]
  simp only [hnof, hloop]
  simp

/-- C6, witness for the amended theorem: the empty archive. -/
theorem C6_ratio_div_by_zero_witness :
    listOp (12 :: 10 :: 116 :: (stringBytes versionBytes ++ u32Bytes 0)) =
      Except.error XErr.divByZero :=
  C6_ratio_div_by_zero 12 10 116 (stringBytes versionBytes ++ u32Bytes 0)
    versionBytes (u32Bytes 0) [] 0 0 (by decide) (by rfl) (by rfl) (by rfl)

/-- C8, counterexample.  Writing archive output `t` targets `t.kzip`,
which already exists with contents 1, 2, 3; the writer does not pick a
fresh name — it truncates and overwrites, so the pre-existing contents
are destroyed. -/
theorem C8_counterexample :
    kzipOutputPath (asciiOf "t") = asciiOf "t.kzip" ∧
    getAssoc [(asciiOf "t.kzip", [1, 2, 3])] (kzipOutputPath (asciiOf "t")) ≠
      none ∧
    getAssoc (zipFinalFs (fun b => b) FsEntries.nil (asciiOf "m") (asciiOf "t")
        [(asciiOf "t.kzip", [1, 2, 3])]) (asciiOf "t.kzip") ≠
      some [1, 2, 3] := by
  refine ⟨by decide, by decide, ?_⟩
  decide

/-- C8, amended: the writer derives the destination purely from the
requested output name (appending `.kzip` unless already suffixed) and
opens it with `File::create`'s create-or-truncate semantics, so after the
run the destination holds the new archive bytes regardless of whether a
file was already there. -/
theorem C8_truncate_overwrite (encode : List Nat → List Nat)
    (root : FsEntries) (input output : List Nat)
    (prior : List (List Nat × List Nat)) :
    getAssoc (zipFinalFs encode root input output prior)
      (kzipOutputPath output) = some (zipArchive encode root input) :=
  getAssoc_setAssoc prior (kzipOutputPath output) (zipArchive encode root input)

/-- C9, counterexample.  Archiving a directory with two files produces two
records, yet the writer performs exactly ONE write to the output file (the
whole archive accumulated in memory), not one append per record. -/
theorem C9_counterexample :
    (zipRecords
      (FsEntries.cons (asciiOf "d")
        (FsTree.dir (FsEntries.cons (asciiOf "x") (FsTree.file 1 2 [7])
          (FsEntries.cons (asciiOf "y") (FsTree.file 3 4 [8]) FsEntries.nil)))
        FsEntries.nil) (asciiOf "d")).length = 2 ∧
    (zipFileWriteEvents (fun b => b)
      (FsEntries.cons (asciiOf "d")
        (FsTree.dir (FsEntries.cons (asciiOf "x") (FsTree.file 1 2 [7])
          (FsEntries.cons (asciiOf "y") (FsTree.file 3 4 [8]) FsEntries.nil)))
        FsEntries.nil) (asciiOf "d")).length = 1 ∧ (1 : Nat) < 2 := by
  refine ⟨by decide, by rfl, by decide⟩

/-- C9, amended: the writer accumulates the header and every record in a
single in-memory buffer and performs exactly one write, of the entire
archive, after all records are serialized (src/main.rs line 200); the
reader similarly starts from `fs::read` of the whole file. -/
theorem C9_single_write (encode : List Nat → List Nat) (root : FsEntries)
    (input : List Nat) :
    zipFileWriteEvents encode root input = [zipArchive encode root input] :=
  rfl

/-- C10.  When the input path is a single regular file, the writer reads
the content via the BASENAME resolved against the current working
directory (`fs::read(file_name)`), not via the supplied input path; if the
path has a directory component and its basename is not a readable file in
the working directory, the header still records `entry_count = 1` but no
record follows it. -/
theorem C10_basename_misread (encode : List Nat → List Nat)
    (root : FsEntries) (input : List Nat) (c m : Nat) (content : List Nat)
    (hres : resolveInput root input = some (FsTree.file c m content))
    (_hseg : 2 ≤ (splitSep input).length)
    (hbase : ∀ c2 m2 ct,
      childLookup root (lastSegment input) ≠ some (FsTree.file c2 m2 ct)) :
    zipRecords root input = [] ∧
    zipArchive encode root input = headerBytes 1 := by
  have hrec : zipRecords root input = [] := by
    rw [zipRecords, hres]
    cases hcl : childLookup root (lastSegment input) with
    | none => rfl
    | some t =>
      cases t with
      | file c2 m2 ct => exact absurd hcl (hbase c2 m2 ct)
      | dir es => rfl
  refine ⟨hrec, ?_⟩
  rw [zipArchive, hrec, zipNof, hres]
  simp [serializeRecords, get_number_of_files]

/-- C10, witness: the file `sub/f.txt` exists, but no `f.txt` exists at
the working-directory root, so the archive is a bare header claiming one
entry. -/
theorem C10_basename_misread_witness :
    zipRecords
      (FsEntries.cons (asciiOf "sub")
        (FsTree.dir (FsEntries.cons (asciiOf "f.txt") (FsTree.file 1 2 [9])
          FsEntries.nil)) FsEntries.nil) (asciiOf "sub/f.txt") = [] ∧
    zipArchive (fun b => b)
      (FsEntries.cons (asciiOf "sub")
        (FsTree.dir (FsEntries.cons (asciiOf "f.txt") (FsTree.file 1 2 [9])
          FsEntries.nil)) FsEntries.nil) (asciiOf "sub/f.txt") =
      headerBytes 1 :=
  C10_basename_misread (fun b => b)
    (FsEntries.cons (asciiOf "sub")
      (FsTree.dir (FsEntries.cons (asciiOf "f.txt") (FsTree.file 1 2 [9])
        FsEntries.nil)) FsEntries.nil) (asciiOf "sub/f.txt") 1 2 [9]
    (by rfl) (by decide)
    (by
      intro c2 m2 ct h
      rw [show childLookup
        (FsEntries.cons (asciiOf "sub")
          (FsTree.dir (FsEntries.cons (asciiOf "f.txt") (FsTree.file 1 2 [9])
            FsEntries.nil)) FsEntries.nil)
        (lastSegment (asciiOf "sub/f.txt")) = none from rfl] at h
      exact Option.noConfusion h)

/-- C3.  Archiving a tree whose walk visits exactly two regular files with
identical bytes emits exactly one unique record (flag byte 0, compressed
payload) for the first and one duplicate-reference record (flag byte 1, no
payload) for the second, whose `reference_index` is 0 — the unique-entry
ordinal of the first file; the duplicate's serialized record is metadata
only: 25 bytes plus the stored name, independent of the content size. -/
theorem C3_dedup_pair (encode : List Nat → List Nat) (root es : FsEntries)
    (input : List Nat) (f1 f2 : FileItem)
    (hres : resolveInput root input = some (FsTree.dir es))
    (hflat : flattenEntries input es = [f1, f2])
    (hsame : f2.content = f1.content) :
    zipRecords root input =
      [KRecord.unique f1.path f1.created f1.modified f1.content,
       KRecord.dupRef f2.path f2.created f2.modified 0] ∧
    serializeRecord encode (KRecord.dupRef f2.path f2.created f2.modified 0) =
      1 :: (stringBytes f2.path ++ u64Bytes f2.created ++ u64Bytes f2.modified ++
        u32Bytes 0) ∧
    (serializeRecord encode
      (KRecord.dupRef f2.path f2.created f2.modified 0)).length =
      25 + f2.path.length := by
  refine ⟨?_, ?_, ?_⟩
  · rw [zipRecords, hres]
    show (read_dir input es []).1 = _
    rw [read_dir_eq_generateAll, hflat]
    simp [generateAll, generate_buffer, hLookup, hInsert, hsame]
  · simp [serializeRecord, u8Bytes]
  · simp [serializeRecord, u8Bytes, stringBytes, u32Bytes, u64Bytes]
    omega

/-- C3, witness: a directory holding `x` and `y`, both with content byte 7. -/
theorem C3_dedup_pair_witness :
    zipRecords
      (FsEntries.cons (asciiOf "d")
        (FsTree.dir (FsEntries.cons (asciiOf "x") (FsTree.file 1 2 [7])
          (FsEntries.cons (asciiOf "y") (FsTree.file 3 4 [7]) FsEntries.nil)))
        FsEntries.nil) (asciiOf "d") =
      [KRecord.unique (asciiOf "d/x") 1 2 [7],
       KRecord.dupRef (asciiOf "d/y") 3 4 0] ∧
    serializeRecord (fun b => b) (KRecord.dupRef (asciiOf "d/y") 3 4 0) =
      1 :: (stringBytes (asciiOf "d/y") ++ u64Bytes 3 ++ u64Bytes 4 ++
        u32Bytes 0) ∧
    (serializeRecord (fun b => b)
      (KRecord.dupRef (asciiOf "d/y") 3 4 0)).length = 25 + (asciiOf "d/y").length := by
  have h := C3_dedup_pair (fun b => b)
    (FsEntries.cons (asciiOf "d")
      (FsTree.dir (FsEntries.cons (asciiOf "x") (FsTree.file 1 2 [7])
        (FsEntries.cons (asciiOf "y") (FsTree.file 3 4 [7]) FsEntries.nil)))
      FsEntries.nil)
    (FsEntries.cons (asciiOf "x") (FsTree.file 1 2 [7])
      (FsEntries.cons (asciiOf "y") (FsTree.file 3 4 [7]) FsEntries.nil))
    (asciiOf "d")
    ⟨asciiOf "d/x", 1, 2, [7]⟩ ⟨asciiOf "d/y", 3, 4, [7]⟩
    (by rfl) (by rfl) (by rfl)
  exact h

/-- C5.  A unique entry written by the archiver from content `C` records
`raw_size = |C|` and `stored_size = |encode C|` and stores the compressed
payload wholesale; the reader's `decode(payload, raw_size)` call then
reconstructs exactly the original bytes `C`, which it writes out. -/
theorem C5_length_fidelity (encode : List Nat → List Nat)
    (decode : List Nat → Nat → List Nat) (h : Hashes)
    (name C output : List Nat) (c m : Nat)
    (hdec : decode (encode C) C.length = C)
    (hnew : hLookup h C = none)
    (hplen : name.length < 2 ^ 32) (hc : c < 2 ^ 64) (hm : m < 2 ^ 64)
    (hr : C.length < 2 ^ 64) (he : (encode C).length < 2 ^ 64) :
    (generate_buffer name c m C h).1 = KRecord.unique name c m C ∧
    serializeRecord encode (KRecord.unique name c m C) =
      0 :: (stringBytes name ++ u64Bytes c ++ u64Bytes m ++
        u64Bytes C.length ++ u64Bytes (encode C).length ++ encode C) ∧
    extractOp decode
      (headerBytes 1 ++ serializeRecord encode (KRecord.unique name c m C))
      output =
      Except.ok [WEvent.mkdir output,
        WEvent.mkdir (dirnameOf (output ++ sepL ++ name)),
        WEvent.fwrite (output ++ sepL ++ name) C] := by
  refine ⟨?_, ?_, ?_⟩
  · simp [generate_buffer, hnew]
  · simp [serializeRecord, u8Bytes]
  · rw [extractOp_single_unique decode encode output name c m C
      hplen hc hm hr he, hdec]

/-- C5, witness at content bytes 5, 6 with the identity codec. -/
theorem C5_length_fidelity_witness :
    (generate_buffer (asciiOf "n") 0 0 [5, 6] []).1 =
      KRecord.unique (asciiOf "n") 0 0 [5, 6] ∧
    serializeRecord (fun b => b) (KRecord.unique (asciiOf "n") 0 0 [5, 6]) =
      0 :: (stringBytes (asciiOf "n") ++ u64Bytes 0 ++ u64Bytes 0 ++
        u64Bytes ([5, 6] : List Nat).length ++
        u64Bytes ((fun (b : List Nat) => b) [5, 6]).length ++
        (fun (b : List Nat) => b) [5, 6]) ∧
    extractOp (fun b _ => b)
      (headerBytes 1 ++
        serializeRecord (fun b => b) (KRecord.unique (asciiOf "n") 0 0 [5, 6]))
      (asciiOf "o") =
      Except.ok [WEvent.mkdir (asciiOf "o"),
        WEvent.mkdir (dirnameOf (asciiOf "o" ++ sepL ++ asciiOf "n")),
        WEvent.fwrite (asciiOf "o" ++ sepL ++ asciiOf "n") [5, 6]] :=
  C5_length_fidelity (fun b => b) (fun b _ => b) [] (asciiOf "n") [5, 6]
    (asciiOf "o") 0 0 (by rfl) (by rfl) (by decide) (by decide) (by decide)
    (by decide) (by decide)

/-- C7.  Every duplicate-reference record the writer emits points strictly
below the number of unique records that precede it in the stream: forward
references never occur, so when the reader processes a `DuplicateRef` the
extraction cache (populated per preceding unique entry) already holds the
referenced ordinal. -/
theorem C7_backref_invariant (root : FsEntries) (input : List Nat)
    (i k : Nat) (name : List Nat) (c m : Nat)
    (hdup : (zipRecords root input)[i]? =
      some (KRecord.dupRef name c m k)) :
    k < uniqueCount ((zipRecords root input).take i) := by
  cases hres : resolveInput root input with
  | none =>
    simp only [zipRecords, hres] at hdup
    simp at hdup
  | some t =>
    cases t with
    | dir es =>
      simp only [zipRecords, hres] at hdup ⊢
      rw [read_dir_eq_generateAll] at hdup ⊢
      have hb := generateAll_dup_bound (flattenEntries input es) [] []
        hashInv_nil i name c m k hdup
      simpa using hb
    | file fc fm fct =>
      simp only [zipRecords, hres] at hdup
      cases hcl : childLookup root (lastSegment input) with
      | none =>
        rw [hcl] at hdup
        simp at hdup
      | some t2 =>
        cases t2 with
        | dir es2 =>
          rw [hcl] at hdup
          simp at hdup
        | file c2 m2 ct2 =>
          rw [hcl] at hdup
          simp only [generate_buffer, hLookup] at hdup
          cases i with
          | zero => simp at hdup
          | succ i2 => simp at hdup

/-- C7, witness: in the two-identical-file archive the duplicate record at
position 1 references ordinal 0, and one unique record precedes it. -/
theorem C7_backref_invariant_witness :
    (0 : Nat) < uniqueCount
      ((zipRecords
        (FsEntries.cons (asciiOf "d")
          (FsTree.dir (FsEntries.cons (asciiOf "x") (FsTree.file 1 2 [7])
            (FsEntries.cons (asciiOf "y") (FsTree.file 3 4 [7]) FsEntries.nil)))
          FsEntries.nil) (asciiOf "d")).take 1) :=
  C7_backref_invariant
    (FsEntries.cons (asciiOf "d")
      (FsTree.dir (FsEntries.cons (asciiOf "x") (FsTree.file 1 2 [7])
        (FsEntries.cons (asciiOf "y") (FsTree.file 3 4 [7]) FsEntries.nil)))
      FsEntries.nil) (asciiOf "d") 1 0 (asciiOf "d/y") 3 4 (by rfl)

/-- C1, counterexample.  An archive storing `relative_path =
"../../etc/passwd"` is extracted to `out/../../etc/passwd`: no leading
`..` or `.` segment is stripped and, resolved lexically, the written path
lies OUTSIDE the output directory. -/
theorem C1_counterexample :
    extractOp (fun b _ => b)
      (headerBytes 1 ++ serializeRecord (fun b => b)
        (KRecord.unique (asciiOf "../../etc/passwd") 0 0 [104]))
      (asciiOf "out") =
      Except.ok [WEvent.mkdir (asciiOf "out"),
        WEvent.mkdir (dirnameOf (asciiOf "out/../../etc/passwd")),
        WEvent.fwrite (asciiOf "out/../../etc/passwd") [104]] ∧
    isInsideDir (asciiOf "out") (asciiOf "out/../../etc/passwd") = false := by
  constructor
  · rfl
  · rfl

/-- C1, amended: extraction performs no path normalization at all — each
entry's file is written at the verbatim concatenation
`output ++ separator ++ stored-path`, so stored parent-directory segments
survive and can denote locations above the output directory. -/
theorem C1_no_normalization (decode : List Nat → Nat → List Nat)
    (encode : List Nat → List Nat) (output name : List Nat) (c m : Nat)
    (raw : List Nat)
    (hplen : name.length < 2 ^ 32) (hc : c < 2 ^ 64) (hm : m < 2 ^ 64)
    (hr : raw.length < 2 ^ 64) (he : (encode raw).length < 2 ^ 64) :
    Except.map fwritesOf
      (extractOp decode
        (headerBytes 1 ++ serializeRecord encode (KRecord.unique name c m raw))
        output) =
      Except.ok [(output ++ sepL ++ name, decode (encode raw) raw.length)] := by
  rw [extractOp_single_unique decode encode output name c m raw
    hplen hc hm hr he]
  rfl

/-- C1, witness for the amended theorem at the crafted traversal path. -/
theorem C1_no_normalization_witness :
    Except.map fwritesOf
      (extractOp (fun b _ => b)
        (headerBytes 1 ++ serializeRecord (fun b => b)
          (KRecord.unique (asciiOf "../../etc/passwd") 0 0 [104]))
        (asciiOf "out")) =
      Except.ok [(asciiOf "out/../../etc/passwd", [104])] :=
  C1_no_normalization (fun b _ => b) (fun b => b) (asciiOf "out")
    (asciiOf "../../etc/passwd") 0 0 [104] (by decide) (by decide)
    (by decide) (by decide) (by decide)

/-- C2, counterexample.  Archiving the tree rooted at input path `mytree`
containing the single file `a.txt` stores the name `mytree/a.txt` (the
input-path prefix is baked into the stored path), so extraction into `out`
writes `out/mytree/a.txt` — relative to the output directory that is
`mytree/a.txt`, not the original relative path `a.txt`; the extracted
relative-path set therefore differs from the tree's. -/
theorem C2_counterexample :
    extractOp (fun b _ => b)
      (zipArchive (fun b => b)
        (FsEntries.cons (asciiOf "mytree")
          (FsTree.dir (FsEntries.cons (asciiOf "a.txt")
            (FsTree.file 5 6 [104, 105]) FsEntries.nil))
          FsEntries.nil)
        (asciiOf "mytree"))
      (asciiOf "out") =
      Except.ok [WEvent.mkdir (asciiOf "out"),
        WEvent.mkdir (asciiOf "out/mytree"),
        WEvent.fwrite (asciiOf "out/mytree/a.txt") [104, 105]] ∧
    relFlatten (FsEntries.cons (asciiOf "a.txt")
        (FsTree.file 5 6 [104, 105]) FsEntries.nil) =
      [(asciiOf "a.txt", [104, 105])] ∧
    stripDirPrefix (asciiOf "out") (asciiOf "out/mytree/a.txt") ≠
      asciiOf "a.txt" := by
  refine ⟨by rfl, by rfl, by decide⟩

/-- C2, amended: extracting the archive written from the directory tree at
input path `p` reproduces every file's content byte-for-byte, but each
file lands at `output ++ sep ++ stored-name` where the stored name is the
`p`-prefixed walk path — the relative paths of the original tree are only
recovered nested under `p`, and timestamps are never restored (the
extractor discards the two timestamp fields; src/main.rs line 230 is a
`todo` comment). -/
theorem C2_prefixed_roundtrip (decode : List Nat → Nat → List Nat)
    (encode : List Nat → List Nat) (root es : FsEntries)
    (input output : List Nat)
    (hdec : ∀ b, decode (encode b) b.length = b)
    (hres : resolveInput root input = some (FsTree.dir es))
    (hgood : ∀ g ∈ flattenEntries input es, GoodFile encode g)
    (hnodup : ((flattenEntries input es).map FileItem.path).Nodup)
    (hcount : (flattenEntries input es).length < 2 ^ 32) :
    extractOp decode (zipArchive encode root input) output =
      Except.ok (WEvent.mkdir output ::
        expectedWrites output (flattenEntries input es)) ∧
    fwritesOf (WEvent.mkdir output ::
        expectedWrites output (flattenEntries input es)) =
      (flattenEntries input es).map
        (fun f => (output ++ sepL ++ f.path, f.content)) := by
  refine ⟨extractOp_zipArchive_dir decode encode root es input output
    hdec hres hgood hnodup hcount, ?_⟩
  show fwritesOf (expectedWrites output (flattenEntries input es)) = _
  exact fwritesOf_expectedWrites output (flattenEntries input es)

/-- C2, witness for the amended theorem on a one-file tree with the
identity codec. -/
theorem C2_prefixed_roundtrip_witness :
    extractOp (fun b _ => b)
      (zipArchive (fun b => b)
        (FsEntries.cons (asciiOf "mytree")
          (FsTree.dir (FsEntries.cons (asciiOf "a.txt")
            (FsTree.file 5 6 [104, 105]) FsEntries.nil))
          FsEntries.nil)
        (asciiOf "mytree"))
      (asciiOf "out") =
      Except.ok (WEvent.mkdir (asciiOf "out") ::
        expectedWrites (asciiOf "out")
          (flattenEntries (asciiOf "mytree")
            (FsEntries.cons (asciiOf "a.txt")
              (FsTree.file 5 6 [104, 105]) FsEntries.nil))) ∧
    fwritesOf (WEvent.mkdir (asciiOf "out") ::
        expectedWrites (asciiOf "out")
          (flattenEntries (asciiOf "mytree")
            (FsEntries.cons (asciiOf "a.txt")
              (FsTree.file 5 6 [104, 105]) FsEntries.nil))) =
      (flattenEntries (asciiOf "mytree")
        (FsEntries.cons (asciiOf "a.txt")
          (FsTree.file 5 6 [104, 105]) FsEntries.nil)).map
        (fun f => (asciiOf "out" ++ sepL ++ f.path, f.content)) :=
  C2_prefixed_roundtrip (fun b _ => b) (fun b => b)
    (FsEntries.cons (asciiOf "mytree")
      (FsTree.dir (FsEntries.cons (asciiOf "a.txt")
        (FsTree.file 5 6 [104, 105]) FsEntries.nil))
      FsEntries.nil)
    (FsEntries.cons (asciiOf "a.txt") (FsTree.file 5 6 [104, 105])
      FsEntries.nil)
    (asciiOf "mytree") (asciiOf "out")
    (fun _ => rfl) (by rfl) (by decide) (by decide) (by decide)
